import Mathlib

/-!
# Verification of the cog-core symbol/resource dependency engine

Shallow embedding of the core of `graph_builder.py` and `debug_graph.py`:
symbol extraction (`parse_symbols`), resource extraction
(`_extract_resources_from_function`, `_extract_function_params`), the
dependency index (`extract_resource_dependencies`), the graph builder
(`build_dependency_graph`) and the analyzer (`analyze_dependencies`).

Python strings are modelled as `String`/`List Char`; Python `set` values are
modelled as duplicate-free `List String` in insertion order (membership and
cardinality agree with the Python sets); Python `dict`s are association
lists in insertion order, which matches Python's ordered dicts.  Python
float arithmetic in the analyzer is modelled exactly over `ℚ`.
-/

/-- Python whitespace as matched by `\s` in `re` for `str` patterns and by
`str.strip()` / `str.isspace()`: ASCII whitespace plus the Unicode
whitespace code points. -/
def pyIsSpace (c : Char) : Bool :=
  let n := c.toNat
  (9 ≤ n && n ≤ 13) || n = 32 || (28 ≤ n && n ≤ 31) || n = 133 || n = 160 ||
  n = 0x1680 || (0x2000 ≤ n && n ≤ 0x200a) || n = 0x2028 || n = 0x2029 ||
  n = 0x202f || n = 0x205f || n = 0x3000

/-- `str.strip()`: drop leading and trailing whitespace. -/
def stripChars (cs : List Char) : List Char :=
  ((cs.dropWhile pyIsSpace).reverse.dropWhile pyIsSpace).reverse

/-- `str.lower()` (ASCII case mapping, which covers every character the
source patterns can match). -/
def lowerChars (cs : List Char) : List Char :=
  cs.map Char.toLower

/-- A regex `\w` word character, `[a-zA-Z0-9_]`. -/
def wordChar (c : Char) : Bool :=
  c.isAlpha || c.isDigit || c = '_'

/-- First character of the identifier class `[a-zA-Z_]`. -/
def identStartChar (c : Char) : Bool :=
  c.isAlpha || c = '_'

/-- Subsequent identifier characters `[a-zA-Z0-9_]`. -/
def identChar (c : Char) : Bool :=
  c.isAlpha || c.isDigit || c = '_'

/-- `startsWithChars cs pat` is true when `pat` is an initial segment of
`cs` (Python `str.startswith`). -/
def startsWithChars : List Char → List Char → Bool
  | _, [] => true
  | [], _ :: _ => false
  | c :: cs, p :: ps => c = p && startsWithChars cs ps

/-- `str.split(sep)` for a one-character separator: splits on every
occurrence and keeps empty pieces, so the result is always nonempty. -/
def splitOnChar (sep : Char) : List Char → List (List Char)
  | [] => [[]]
  | c :: rest =>
    match splitOnChar sep rest with
    | [] => [[]]
    | h :: t => if c = sep then [] :: h :: t else (c :: h) :: t

/-- `"\n".join(lines)`. -/
def joinLines : List (List Char) → List Char
  | [] => []
  | [l] => l
  | l :: ls => l ++ '\n' :: joinLines ls

/-- `containsPattern pat cs` is true when `pat` occurs as a contiguous
substring of `cs` (an unanchored regex literal match). -/
def containsPattern (pat : List Char) : List Char → Bool
  | [] => pat.isEmpty
  | c :: rest => startsWithChars (c :: rest) pat || containsPattern pat rest

/-! ## Python `set` values as duplicate-free lists -/

/-- `set.add`: append the element unless it is already present.  Keeps
insertion order, so membership and length agree with the Python set. -/
def insertNew (l : List String) (s : String) : List String :=
  if s ∈ l then l else l ++ [s]

/-- `set.update(xs)`: add every element of `xs`. -/
def updateAll (l : List String) (xs : List String) : List String :=
  xs.foldl insertNew l

/-! ## Python dicts as association lists -/

/-- `resource_dependencies` / `operation_resources`: a dict from a name to
a set of names, in key insertion order. -/
abbrev DepMap := List (String × List String)

/-- Dict lookup `m[k]` as an `Option`. -/
def lookupEntry : DepMap → String → Option (List String)
  | [], _ => none
  | (k', v) :: rest, k => if k' = k then some v else lookupEntry rest k

/-- Dict lookup defaulting to the empty set (what `defaultdict(set)`
produces for an absent key). -/
def lookupD (m : DepMap) (k : String) : List String :=
  (lookupEntry m k).getD []

/-- Dict assignment `m[k] = v`: replaces the value of an existing key in
place (keeping its position, as Python dicts do; keys are unique, so
replacing the first occurrence suffices), otherwise appends a new
entry. -/
def setEntry : DepMap → String → List String → DepMap
  | [], k, v => [(k, v)]
  | (k1, v1) :: rest, k, v =>
    if k1 = k then (k, v) :: rest else (k1, v1) :: setEntry rest k v

/-- `defaultdict(set)`: `m[k].add(v)` adds `v` to the set of an existing
key in place, or creates the entry `(k, {v})` at the end. -/
def addToEntry : DepMap → String → String → DepMap
  | [], k, v => [(k, [v])]
  | (k1, v1) :: rest, k, v =>
    if k1 = k then (k1, insertNew v1 v) :: rest else (k1, v1) :: addToEntry rest k v

/-- The keys of the dict, in order. -/
def keyList (m : DepMap) : List String :=
  m.map (fun p => p.1)

/-- Total number of (key, element) pairs held in a dict of sets. -/
def pairCount (m : DepMap) : Nat :=
  (m.map (fun p => p.2.length)).sum

/-! ## Symbol extraction (`debug_graph.py`, `parse_symbols`)

The pattern `^\s*(async\s+)?(def|class)\s+([a-zA-Z_][a-zA-Z0-9_]*)` is run
with `re.MULTILINE` via `finditer`; the symbol's line is
`code.count('\n', 0, m.start()) + 1`.  A match can only begin at a line
start (`^`), and the leading `\s*` may consume newlines, so the recorded
line is the line on which the whole match (including leading whitespace)
begins. -/

structure CodeSymbol where
  name : String
  type : String
  line : Nat
deriving DecidableEq, Repr

/-- The identifier `[a-zA-Z_][a-zA-Z0-9_]*` at the head of the input,
with the rest of the input. -/
def takeIdent : List Char → Option (List Char × List Char)
  | [] => none
  | c :: rest =>
    if identStartChar c then
      let tail := rest.takeWhile identChar
      some (c :: tail, rest.drop tail.length)
    else none

/-- Attempt the body of the declaration pattern at one position:
`\s*(async\s+)?(def|class)\s+name`.  On success returns the name, the
symbol type (`"function"` for `def`, `"class"` for `class`), the number of
newlines consumed by the match, and the rest of the input after the
name. -/
def matchDecl (cs : List Char) : Option (String × String × Nat × List Char) :=
  let ws := cs.takeWhile pyIsSpace
  let r1 := cs.drop ws.length
  let asyncTry : Option (List Char × Nat) :=
    if startsWithChars r1 ("async".toList) then
      let a1 := r1.drop 5
      let ws2 := a1.takeWhile pyIsSpace
      if ws2.length = 0 then none else some (a1.drop ws2.length, ws2.count '\n')
    else none
  let state := match asyncTry with
    | some p => p
    | none => (r1, 0)
  let kw : Option (String × List Char) :=
    if startsWithChars state.1 ("def".toList) then some ("function", state.1.drop 3)
    else if startsWithChars state.1 ("class".toList) then some ("class", state.1.drop 5)
    else none
  match kw with
  | none => none
  | some (kind, r3) =>
    let ws3 := r3.takeWhile pyIsSpace
    if ws3.length = 0 then none
    else
      match takeIdent (r3.drop ws3.length) with
      | none => none
      | some (nm, rest) =>
        some (String.mk nm, kind, ws.count '\n' + state.2 + ws3.count '\n', rest)

/-- The `finditer` scan: try the pattern at every line start (`^` with
`re.MULTILINE`), emit a symbol at each match with the 1-based line of the
match start, and resume scanning right after the matched text.  `fuel` is
the length of the input; every step consumes at least one character. -/
def parseSymbolsAux : Nat → List Char → Nat → Bool → List CodeSymbol
  | 0, _, _, _ => []
  | _ + 1, [], _, _ => []
  | fuel + 1, c :: cs, line, bol =>
    if bol then
      match matchDecl (c :: cs) with
      | some (nm, kind, nl, rest) =>
        { name := nm, type := kind, line := line } ::
          parseSymbolsAux fuel rest (line + nl) false
      | none =>
        parseSymbolsAux fuel cs (if c = '\n' then line + 1 else line) (c = '\n')
    else
      parseSymbolsAux fuel cs (if c = '\n' then line + 1 else line) (c = '\n')

/-- `SymbolGraphBuilder.parse_symbols` of `debug_graph.py`. -/
def parse_symbols (code : String) : List CodeSymbol :=
  parseSymbolsAux code.toList.length code.toList 1 true

/-! ## Resource extraction (`graph_builder.py`)

`extract_resource_dependencies` slices each function's body out of the
text, `_extract_resources_from_function` collects parameter names and
pattern matches, `_extract_function_params` parses the parameter list. -/

/-- The body-boundary test of `extract_resource_dependencies`:
`line.strip().startswith(("def ", "class ", "async def "))`. -/
def isBoundary (l : List Char) : Bool :=
  startsWithChars (stripChars l) ("def ".toList) ||
  startsWithChars (stripChars l) ("class ".toList) ||
  startsWithChars (stripChars l) ("async def ".toList)

/-- Index of the first boundary line in `ls`, reporting indices starting
at `i`; `none` when there is no boundary line. -/
def findBd : List (List Char) → Nat → Option Nat
  | [], _ => none
  | l :: ls, i => if isBoundary l then some i else findBd ls (i + 1)

/-- `end_line` of the body slice: the loop
`for i in range(start_line + 1, len(lines))` breaking at the first
boundary line, with `end_line` defaulting to `len(lines)`. -/
def funcEndLine (lines : List (List Char)) (start : Nat) : Nat :=
  match findBd (lines.drop (start + 1)) (start + 1) with
  | some j => j
  | none => lines.length

/-- `"\n".join(lines[start_line:end_line])`.  `start` is the 0-based
`start_line = symbol["line"] - 1`; `parse_symbols` only produces 1-based
lines, so the subtraction is modelled on `Nat`. -/
def funcBody (lines : List (List Char)) (start : Nat) : List Char :=
  joinLines ((lines.drop start).take (funcEndLine lines start - start))

/-- The test `line.strip().startswith(("def ", "async def "))` selecting
signature lines for the parameter pass. -/
def isDefLine (l : List Char) : Bool :=
  startsWithChars (stripChars l) ("def ".toList) ||
  startsWithChars (stripChars l) ("async def ".toList)

/-- `param.split(":")[0].split("=")[0].strip()` applied after the initial
strip: drop a type annotation or default value, then strip. -/
def cleanParam (p : List Char) : List Char :=
  stripChars (((stripChars p).takeWhile (fun c => c ≠ ':')).takeWhile (fun c => c ≠ '='))

/-- `_extract_function_params`: `re.search(r"\((.*?)\)", line)` takes the
text between the first `(` and the first `)` after it (the leftmost,
shortest match); the pieces are split on `,`, cleaned, and kept unless
empty or `self`. -/
def extractFunctionParams (l : List Char) : List String :=
  let afterOpen := l.dropWhile (fun c => c ≠ '(')
  match afterOpen with
  | [] => []
  | _ :: r =>
    let inner := r.takeWhile (fun c => c ≠ ')')
    if r.length = inner.length then []
    else
      ((splitOnChar ',' inner).map (fun p => String.mk (cleanParam p))).filter
        (fun s => s ≠ "" && s ≠ "self")

/-- One alternative of the database pattern
`(connect|connection|cursor|execute|query)` occurs in the line
(`connection` is subsumed by its own initial segment `connect`). -/
def dbHit (l : List Char) : Bool :=
  containsPattern ("connect".toList) l || containsPattern ("cursor".toList) l ||
  containsPattern ("execute".toList) l || containsPattern ("query".toList) l

/-- One HTTP verb of `(get|post|put|delete|request)\s*\(` matches at the
head of `l`. -/
def verbAt (v : List Char) (l : List Char) : Bool :=
  startsWithChars l v &&
    match (l.drop v.length).dropWhile pyIsSpace with
    | c :: _ => c = '('
    | [] => false

/-- The HTTP pattern `(get|post|put|delete|request)\s*\(` matches
somewhere in the line. -/
def httpHit : List Char → Bool
  | [] => false
  | c :: rest =>
    verbAt ("get".toList) (c :: rest) || verbAt ("post".toList) (c :: rest) ||
    verbAt ("put".toList) (c :: rest) || verbAt ("delete".toList) (c :: rest) ||
    verbAt ("request".toList) (c :: rest) || httpHit rest

/-- The six literal alternatives of the config pattern's capture group
`(config|settings|resource|data_|input_|output_)`. -/
def cfgNames : List String :=
  ["config", "settings", "resource", "data_", "input_", "output_"]

/-- The capture-group alternative matching at the head of `l`, if any.
The alternatives start with six distinct letters, so at most one can
match. -/
def matchCfg (l : List Char) : Option String :=
  if startsWithChars l ("config".toList) then some "config"
  else if startsWithChars l ("settings".toList) then some "settings"
  else if startsWithChars l ("resource".toList) then some "resource"
  else if startsWithChars l ("data_".toList) then some "data_"
  else if startsWithChars l ("input_".toList) then some "input_"
  else if startsWithChars l ("output_".toList) then some "output_"
  else none

/-- `re.findall` for `\b(config|settings|resource|data_|input_|output_)\w*`:
the returned matches are the capture group's text, i.e. the matched
alternative, not the whole `\w*` word.  `prevW` records whether the
previous character was a word character (`\b` fails inside a word, so a
word whose start does not match contributes nothing, and scanning resumes
after a matched word). -/
def configFindallAux : List Char → Bool → List String
  | [], _ => []
  | c :: rest, prevW =>
    if !prevW && wordChar c then
      match matchCfg (c :: rest) with
      | some p => p :: configFindallAux rest true
      | none => configFindallAux rest true
    else configFindallAux rest (wordChar c)

/-- All config-pattern capture groups found in a line. -/
def configFindall (l : List Char) : List String :=
  configFindallAux l false

/-- A match of `\.open\s*\(\s*['"]([^'"]+)['"]` at a position whose `.`
has just been consumed: `open`, optional whitespace, `(`, optional
whitespace, a quote, one or more non-quote characters (the capture
group), and a closing quote of either kind.  Returns the captured path
and the rest of the line after the match. -/
def tryOpenMatch (rest : List Char) : Option (String × List Char) :=
  if startsWithChars rest ("open".toList) then
    match ((rest.drop 4).dropWhile pyIsSpace) with
    | '(' :: r2 =>
      match r2.dropWhile pyIsSpace with
      | q :: r4 =>
        if q.toNat = 39 || q.toNat = 34 then
          let content := r4.takeWhile (fun c => c.toNat ≠ 39 && c.toNat ≠ 34)
          match r4.drop content.length with
          | q2 :: r6 =>
            if (q2.toNat = 39 || q2.toNat = 34) && content.length ≠ 0 then
              some (String.mk content, r6)
            else none
          | [] => none
        else none
      | [] => none
    | _ => none
  else none

/-- `re.findall` for the file pattern: scan left to right, collect the
capture group of each non-overlapping match, resume after the match.
`fuel` is the length of the input; every step consumes at least one
character. -/
def fileFindallAux : Nat → List Char → List String
  | 0, _ => []
  | _ + 1, [] => []
  | fuel + 1, c :: rest =>
    if c = '.' then
      match tryOpenMatch rest with
      | some (path, r) => path :: fileFindallAux fuel r
      | none => fileFindallAux fuel rest
    else fileFindallAux fuel rest

/-- All file-pattern capture groups found in a line. -/
def fileFindall (l : List Char) : List String :=
  fileFindallAux l.length l

/-- The per-line pattern pass of `_extract_resources_from_function`:
comments are skipped; the four patterns run in order on the lowered line;
the file and config patterns add their capture groups, the database and
HTTP patterns add `database_<n>` / `http_<n>` with `n` the size of the
result set at that moment. -/
def processResourceLine (acc : List String) (line : List Char) : List String :=
  if startsWithChars (stripChars line) ("#".toList) then acc
  else
    let low := lowerChars line
    let a1 := updateAll acc (fileFindall low)
    let a2 := if dbHit low then insertNew a1 ("database_" ++ toString a1.length) else a1
    let a3 := if httpHit low then insertNew a2 ("http_" ++ toString a2.length) else a2
    updateAll a3 (configFindall low)

/-- `_extract_resources_from_function`: parameters of every signature line
first, then the pattern pass over every line of the function's code. -/
def extract_resources_from_function (funcCode : List Char) : List String :=
  let lines := splitOnChar '\n' funcCode
  let acc := lines.foldl
    (fun acc l => if isDefLine l then updateAll acc (extractFunctionParams l) else acc) []
  lines.foldl processResourceLine acc

/-- The resource set computed for one function symbol: the body slice
starting at `symbol["line"] - 1`, passed to
`_extract_resources_from_function`. -/
def resOf (code : String) (s : CodeSymbol) : List String :=
  extract_resources_from_function (funcBody (splitOnChar '\n' code.toList) (s.line - 1))

/-- One iteration of the symbol loop of `extract_resource_dependencies`:
class symbols are skipped; for a function symbol the resource set is
assigned to `operation_resources[func_name]` and the function name is
added to `resource_dependencies[resource]` for every resource.  The state
is the pair (resource_dependencies, operation_resources). -/
def extractStep (code : String) (st : DepMap × DepMap) (s : CodeSymbol) : DepMap × DepMap :=
  if s.type = "function" then
    let resources := resOf code s
    (resources.foldl (fun m r => addToEntry m r s.name) st.1,
     setEntry st.2 s.name resources)
  else st

/-- `SymbolGraphBuilder.extract_resource_dependencies`: clears both
mappings, processes every symbol, and returns
(resource_dependencies, operation_resources). -/
def extract_resource_dependencies (symbols : List CodeSymbol) (code : String) :
    DepMap × DepMap :=
  symbols.foldl (extractStep code) ([], [])

/-! ## Graph builder (`build_dependency_graph`)

A NetworkX `DiGraph` is modelled as a node list (id, optional `type`
attribute, in insertion order) and an edge list.  `add_node` on an
existing node updates its attribute; `add_edge` inserts missing endpoint
nodes without attributes and never duplicates an edge. -/

structure DepGraph where
  nodes : List (String × Option String)
  edges : List (String × String)
deriving DecidableEq, Repr

/-- The node ids of the graph, in insertion order. -/
def nodeIds (g : DepGraph) : List String :=
  g.nodes.map (fun p => p.1)

/-- `G.add_node(x, type=tag)`. -/
def addNode (g : DepGraph) (x : String) (tag : String) : DepGraph :=
  if x ∈ nodeIds g then
    { g with nodes := g.nodes.map (fun p => if p.1 = x then (p.1, some tag) else p) }
  else { g with nodes := g.nodes ++ [(x, some tag)] }

/-- The implicit node insertion performed by `G.add_edge` for a missing
endpoint: the node is created without a `type` attribute. -/
def ensureNode (g : DepGraph) (x : String) : DepGraph :=
  if x ∈ nodeIds g then g else { g with nodes := g.nodes ++ [(x, none)] }

/-- `G.add_edge(u, v, relation="uses")`: a directed edge, at most once. -/
def addEdge (g : DepGraph) (u v : String) : DepGraph :=
  let g2 := ensureNode (ensureNode g u) v
  if (u, v) ∈ g2.edges then g2 else { g2 with edges := g2.edges ++ [(u, v)] }

/-- `SymbolGraphBuilder.build_dependency_graph` on the index state:
operation nodes first, then each resource node followed by its `uses`
edges. -/
def build_dependency_graph (resDeps opRes : DepMap) : DepGraph :=
  let g1 := opRes.foldl (fun g p => addNode g p.1 "operation") ⟨[], []⟩
  resDeps.foldl
    (fun g p => p.2.foldl (fun g' op => addEdge g' op p.1) (addNode g p.1 "resource")) g1

/-! ## Analyzer (`analyze_dependencies`) -/

structure Insights where
  total_operations : Nat
  total_resources : Nat
  resource_usage : List (String × Nat)
  operation_dependencies : List (String × Nat)
  shared_resources : List (String × List String)
  critical_resources : List String
deriving DecidableEq, Repr

/-- `analyze_dependencies` on the index state.  The source guards with
`total_resources > 0 and resource_usage`, computes
`avg_usage = sum(counts) / len(counts)` and keeps the resources with
`count > avg_usage * 1.5` (float arithmetic, modelled exactly as rational
arithmetic).  Since the guard gives `len(counts) > 0`, the comparison
`count > (sum / len) * (3/2)` is equivalent to the denominator-cleared
`2 * count * len > 3 * sum` used here, which keeps the definition
computable by the kernel; the source's `isinstance(count, int)` guard is
always true and is therefore omitted. -/
def analyze_dependencies (resDeps opRes : DepMap) : Insights :=
  let usage := resDeps.map (fun p => (p.1, p.2.length))
  let critical :=
    if resDeps.length > 0 && !usage.isEmpty then
      let total := (usage.map (fun p => p.2)).sum
      (usage.filter (fun p => decide (2 * p.2 * usage.length > 3 * total))).map
        (fun p => p.1)
    else []
  { total_operations := opRes.length
    total_resources := resDeps.length
    resource_usage := usage
    operation_dependencies := opRes.map (fun p => (p.1, p.2.length))
    shared_resources := (resDeps.filter (fun p => p.2.length > 1)).map (fun p => (p.1, p.2))
    critical_resources := critical }

/-- Usage count recorded for a resource in the insights (0 when the
resource is absent). -/
def usageOf (ins : Insights) (r : String) : Nat :=
  ((ins.resource_usage.find? (fun p => p.1 = r)).map (fun p => p.2)).getD 0


/-! ## Basic lemmas about the set and dict operations -/

theorem mem_insertNew {l : List String} {v x : String} :
    x ∈ insertNew l v ↔ x ∈ l ∨ x = v := by
  unfold insertNew
  split
  · next h => exact ⟨Or.inl, fun hx => hx.elim id (fun e => e ▸ h)⟩
  · simp

theorem insertNew_nodup {l : List String} {v : String} (h : l.Nodup) :
    (insertNew l v).Nodup := by
  unfold insertNew
  split
  · exact h
  · next hv =>
    refine h.append (List.nodup_singleton v) ?_
    intro a ha hb
    simp only [List.mem_singleton] at hb
    exact hv (hb ▸ ha)

theorem insertNew_length_of_not_mem {l : List String} {v : String} (h : v ∉ l) :
    (insertNew l v).length = l.length + 1 := by
  simp [insertNew, h]

theorem insertNew_of_mem {l : List String} {v : String} (h : v ∈ l) :
    insertNew l v = l := by
  simp [insertNew, h]

theorem mem_updateAll {xs l : List String} {x : String} :
    x ∈ updateAll l xs ↔ x ∈ l ∨ x ∈ xs := by
  induction xs generalizing l with
  | nil => simp [updateAll]
  | cons y ys ih =>
    show x ∈ updateAll (insertNew l y) ys ↔ _
    rw [ih, mem_insertNew]
    simp [or_assoc, or_comm (a := x = y)]

theorem updateAll_nodup {xs l : List String} (h : l.Nodup) :
    (updateAll l xs).Nodup := by
  induction xs generalizing l with
  | nil => exact h
  | cons y ys ih => exact ih (insertNew_nodup h)

theorem lookupEntry_setEntry_self (m : DepMap) (k : String) (v : List String) :
    lookupEntry (setEntry m k v) k = some v := by
  induction m with
  | nil => simp [setEntry, lookupEntry]
  | cons p rest ih =>
    obtain ⟨k1, v1⟩ := p
    by_cases hk : k1 = k
    · simp [setEntry, hk, lookupEntry]
    · simp [setEntry, hk, lookupEntry, ih]

theorem lookupEntry_setEntry_ne {m : DepMap} {k k' : String} {v : List String}
    (h : k' ≠ k) :
    lookupEntry (setEntry m k v) k' = lookupEntry m k' := by
  induction m with
  | nil => simp [setEntry, lookupEntry, Ne.symm h]
  | cons p rest ih =>
    obtain ⟨k1, v1⟩ := p
    by_cases hk : k1 = k
    · subst hk
      simp [setEntry, lookupEntry, Ne.symm h]
    · simp [setEntry, hk, lookupEntry, ih]

theorem lookupD_addToEntry_self (m : DepMap) (k : String) (v : String) :
    lookupD (addToEntry m k v) k = insertNew (lookupD m k) v := by
  induction m with
  | nil => simp [addToEntry, lookupD, lookupEntry, insertNew]
  | cons p rest ih =>
    obtain ⟨k1, v1⟩ := p
    by_cases hk : k1 = k
    · subst hk
      simp [addToEntry, lookupD, lookupEntry]
    · simpa [addToEntry, hk, lookupD, lookupEntry] using ih

theorem lookupEntry_addToEntry_ne {m : DepMap} {k k' : String} {v : String}
    (h : k' ≠ k) :
    lookupEntry (addToEntry m k v) k' = lookupEntry m k' := by
  induction m with
  | nil => simp [addToEntry, lookupEntry, Ne.symm h]
  | cons p rest ih =>
    obtain ⟨k1, v1⟩ := p
    by_cases hk : k1 = k
    · subst hk
      simp [addToEntry, lookupEntry, Ne.symm h]
    · simp [addToEntry, hk, lookupEntry, ih]

theorem mem_lookupD_addToEntry {m : DepMap} {k k' : String} {v x : String} :
    x ∈ lookupD (addToEntry m k v) k' ↔ x ∈ lookupD m k' ∨ (k' = k ∧ x = v) := by
  by_cases h : k' = k
  · subst h
    rw [lookupD_addToEntry_self, mem_insertNew]
    simp
  · rw [lookupD, lookupEntry_addToEntry_ne h]
    simp [lookupD, h]

theorem keyList_setEntry (m : DepMap) (k : String) (v : List String) :
    keyList (setEntry m k v) =
      if k ∈ keyList m then keyList m else keyList m ++ [k] := by
  induction m with
  | nil => simp [setEntry, keyList]
  | cons p rest ih =>
    obtain ⟨k1, v1⟩ := p
    by_cases hk : k1 = k
    · subst hk
      simp [setEntry, keyList]
    · have hk' : ¬(k = k1) := fun e => hk e.symm
      simp only [setEntry, if_neg hk, keyList, List.map_cons] at ih ⊢
      rw [ih]
      by_cases hm : k ∈ rest.map (fun p => p.1) <;> simp [hm, hk']

theorem keyList_addToEntry (m : DepMap) (k : String) (v : String) :
    keyList (addToEntry m k v) =
      if k ∈ keyList m then keyList m else keyList m ++ [k] := by
  induction m with
  | nil => simp [addToEntry, keyList]
  | cons p rest ih =>
    obtain ⟨k1, v1⟩ := p
    by_cases hk : k1 = k
    · subst hk
      simp [addToEntry, keyList]
    · have hk' : ¬(k = k1) := fun e => hk e.symm
      simp only [addToEntry, if_neg hk, keyList, List.map_cons] at ih ⊢
      rw [ih]
      by_cases hm : k ∈ rest.map (fun p => p.1) <;> simp [hm, hk']

/-! ## Lemmas about the resource extraction pass -/

theorem processResourceLine_nodup {acc : List String} {l : List Char}
    (h : acc.Nodup) : (processResourceLine acc l).Nodup := by
  unfold processResourceLine
  split
  · exact h
  · refine updateAll_nodup ?_
    split
    · split
      · exact insertNew_nodup (insertNew_nodup (updateAll_nodup h))
      · exact insertNew_nodup (updateAll_nodup h)
    · split
      · exact insertNew_nodup (updateAll_nodup h)
      · exact updateAll_nodup h

theorem foldl_processResourceLine_nodup :
    ∀ (lines : List (List Char)) (acc : List String), acc.Nodup →
      (lines.foldl processResourceLine acc).Nodup := by
  intro lines
  induction lines with
  | nil => exact fun _ h => h
  | cons l ls ih => exact fun acc h => ih _ (processResourceLine_nodup h)

theorem extract_resources_nodup (funcCode : List Char) :
    (extract_resources_from_function funcCode).Nodup := by
  unfold extract_resources_from_function
  refine foldl_processResourceLine_nodup _ _ ?_
  generalize splitOnChar '\n' funcCode = lines
  induction lines with
  | nil => simp
  | cons l ls ih =>
    simp only [List.foldl_cons]
    have h0 : (if isDefLine l then updateAll [] (extractFunctionParams l) else []).Nodup := by
      split
      · exact updateAll_nodup (List.nodup_nil)
      · exact List.nodup_nil
    -- the fold preserves nodup from any starting accumulator
    clear ih
    generalize (if isDefLine l then updateAll [] (extractFunctionParams l) else []) = acc at h0 ⊢
    induction ls generalizing acc with
    | nil => exact h0
    | cons l2 ls2 ih2 =>
      simp only [List.foldl_cons]
      apply ih2
      split
      · exact updateAll_nodup h0
      · exact h0

theorem resOf_nodup (code : String) (s : CodeSymbol) : (resOf code s).Nodup :=
  extract_resources_nodup _

theorem processResourceLine_mono {acc : List String} {l : List Char} {x : String}
    (h : x ∈ acc) : x ∈ processResourceLine acc l := by
  unfold processResourceLine
  split
  · exact h
  · refine mem_updateAll.mpr (Or.inl ?_)
    split
    · split
      · exact mem_insertNew.mpr (Or.inl (mem_insertNew.mpr (Or.inl (mem_updateAll.mpr (Or.inl h)))))
      · exact mem_insertNew.mpr (Or.inl (mem_updateAll.mpr (Or.inl h)))
    · split
      · exact mem_insertNew.mpr (Or.inl (mem_updateAll.mpr (Or.inl h)))
      · exact mem_updateAll.mpr (Or.inl h)

theorem foldl_processResourceLine_mono :
    ∀ (lines : List (List Char)) (acc : List String) (x : String), x ∈ acc →
      x ∈ lines.foldl processResourceLine acc := by
  intro lines
  induction lines with
  | nil => exact fun _ _ h => h
  | cons l ls ih => exact fun acc x h => ih _ _ (processResourceLine_mono h)

theorem configFindallAux_subset :
    ∀ (cs : List Char) (b : Bool) (m : String), m ∈ configFindallAux cs b → m ∈ cfgNames := by
  intro cs
  induction cs with
  | nil => intro b m h; simp [configFindallAux] at h
  | cons c rest ih =>
    intro b m h
    unfold configFindallAux at h
    split at h
    · revert h
      unfold matchCfg
      split_ifs <;> intro h <;>
        first
        | (rcases List.mem_cons.mp h with h1 | h1
           · rw [h1]; simp [cfgNames]
           · exact ih _ _ h1)
        | exact ih _ _ h
    · exact ih _ _ h

theorem mem_processResourceLine_of_config {acc : List String} {l : List Char} {m : String}
    (hc : ¬startsWithChars (stripChars l) ("#".toList) = true)
    (hm : m ∈ configFindall (lowerChars l)) :
    m ∈ processResourceLine acc l := by
  unfold processResourceLine
  rw [if_neg hc]
  exact mem_updateAll.mpr (Or.inr hm)

theorem mem_foldl_processResourceLine_of_config :
    ∀ (lines : List (List Char)) (acc : List String) (l : List Char) (m : String),
      l ∈ lines → ¬startsWithChars (stripChars l) ("#".toList) = true →
      m ∈ configFindall (lowerChars l) →
      m ∈ lines.foldl processResourceLine acc := by
  intro lines
  induction lines with
  | nil => intro _ _ _ h; simp at h
  | cons l0 ls ih =>
    intro acc l m hl hc hm
    rcases List.mem_cons.mp hl with h | h
    · subst h
      simp only [List.foldl_cons]
      exact foldl_processResourceLine_mono _ _ _ (mem_processResourceLine_of_config hc hm)
    · exact ih _ _ _ h hc hm

/-! ## Lemmas about the dependency index fold -/

/-- The names of the function symbols of a symbol list, in order. -/
def FnNames (symbols : List CodeSymbol) : List String :=
  (symbols.filter (fun s => s.type == "function")).map (fun s => s.name)

theorem mem_lookupD_foldAdd_iff :
    ∀ (R : List String) (m : DepMap) (v r x : String),
      x ∈ lookupD (R.foldl (fun m' r' => addToEntry m' r' v) m) r ↔
        x ∈ lookupD m r ∨ (r ∈ R ∧ x = v) := by
  intro R
  induction R with
  | nil => simp
  | cons r0 rs ih =>
    intro m v r x
    simp only [List.foldl_cons]
    rw [ih, mem_lookupD_addToEntry]
    simp only [List.mem_cons]
    tauto

theorem foldl_extractStep_res_mem :
    ∀ (symbols : List CodeSymbol) (st : DepMap × DepMap) (code : String) (x r : String),
      x ∈ lookupD (symbols.foldl (extractStep code) st).1 r ↔
        x ∈ lookupD st.1 r ∨
          ∃ s ∈ symbols, s.type = "function" ∧ s.name = x ∧ r ∈ resOf code s := by
  intro symbols
  induction symbols with
  | nil => simp
  | cons s rest ih =>
    intro st code x r
    simp only [List.foldl_cons]
    rw [ih]
    by_cases hf : s.type = "function"
    · have hstep : (extractStep code st s).1 =
          (resOf code s).foldl (fun m' r' => addToEntry m' r' s.name) st.1 := by
        simp [extractStep, hf]
      rw [hstep, mem_lookupD_foldAdd_iff]
      simp only [List.mem_cons]
      constructor
      · rintro ((h | ⟨hr, rfl⟩) | ⟨s', hs', h1, h2, h3⟩)
        · exact Or.inl h
        · exact Or.inr ⟨s, Or.inl rfl, hf, rfl, hr⟩
        · exact Or.inr ⟨s', Or.inr hs', h1, h2, h3⟩
      · rintro (h | ⟨s', hs' | hs', h1, h2, h3⟩)
        · exact Or.inl (Or.inl h)
        · subst hs'
          exact Or.inl (Or.inr ⟨h3, h2.symm⟩)
        · exact Or.inr ⟨s', hs', h1, h2, h3⟩
    · have hstep : extractStep code st s = st := by
        simp [extractStep, hf]
      rw [hstep]
      simp only [List.mem_cons]
      constructor
      · rintro (h | ⟨s', hs', h1, h2, h3⟩)
        · exact Or.inl h
        · exact Or.inr ⟨s', Or.inr hs', h1, h2, h3⟩
      · rintro (h | ⟨s', hs' | hs', h1, h2, h3⟩)
        · exact Or.inl h
        · exact absurd (hs' ▸ h1) hf
        · exact Or.inr ⟨s', hs', h1, h2, h3⟩

theorem extract_res_mem_iff (symbols : List CodeSymbol) (code : String) (x r : String) :
    x ∈ lookupD (extract_resource_dependencies symbols code).1 r ↔
      ∃ s ∈ symbols, s.type = "function" ∧ s.name = x ∧ r ∈ resOf code s := by
  unfold extract_resource_dependencies
  rw [foldl_extractStep_res_mem]
  simp [lookupD, lookupEntry]

theorem getLast?_cons_eq {α : Type} (a : α) (l : List α) :
    (a :: l).getLast? = match l.getLast? with
      | some b => some b
      | none => some a := by
  cases l with
  | nil => simp
  | cons b t =>
    rw [List.getLast?_cons_cons]
    cases h : (b :: t).getLast? with
    | some x => rfl
    | none =>
      have hs : (b :: t).getLast?.isSome := List.getLast?_isSome.mpr (by simp)
      rw [h] at hs
      simp at hs

theorem foldl_extractStep_op_lookup :
    ∀ (symbols : List CodeSymbol) (st : DepMap × DepMap) (code : String) (n : String),
      lookupEntry (symbols.foldl (extractStep code) st).2 n =
        match (symbols.filter (fun s => s.type == "function" && s.name == n)).getLast? with
        | some s => some (resOf code s)
        | none => lookupEntry st.2 n := by
  intro symbols
  induction symbols with
  | nil => simp
  | cons s rest ih =>
    intro st code n
    simp only [List.foldl_cons]
    rw [ih]
    by_cases hp : s.type = "function" ∧ s.name = n
    · have hfil : (s :: rest).filter (fun s => s.type == "function" && s.name == n) =
          s :: rest.filter (fun s => s.type == "function" && s.name == n) := by
        simp [List.filter_cons, hp.1, hp.2]
      rw [hfil, getLast?_cons_eq]
      cases hl : (rest.filter (fun s => s.type == "function" && s.name == n)).getLast? with
      | some s' => simp
      | none =>
        have hstep : (extractStep code st s).2 = setEntry st.2 s.name (resOf code s) := by
          simp [extractStep, hp.1]
        simp only [hstep, hp.2]
        exact lookupEntry_setEntry_self _ _ _
    · have hfil : (s :: rest).filter (fun s => s.type == "function" && s.name == n) =
          rest.filter (fun s => s.type == "function" && s.name == n) := by
        rw [List.filter_cons]
        have : (s.type == "function" && s.name == n) = false := by
          rw [not_and_or] at hp
          rcases hp with h | h <;> simp [h]
        simp [this]
      rw [hfil]
      cases hl : (rest.filter (fun s => s.type == "function" && s.name == n)).getLast? with
      | some s' => simp
      | none =>
        simp only []
        by_cases hf : s.type = "function"
        · have hn : s.name ≠ n := fun e => hp ⟨hf, e⟩
          have hstep : (extractStep code st s).2 = setEntry st.2 s.name (resOf code s) := by
            simp [extractStep, hf]
          rw [hstep]
          exact lookupEntry_setEntry_ne (fun e => hn e.symm)
        · have hstep : extractStep code st s = st := by
            simp [extractStep, hf]
          rw [hstep]

theorem extract_op_lookup (symbols : List CodeSymbol) (code : String) (n : String) :
    lookupEntry (extract_resource_dependencies symbols code).2 n =
      match (symbols.filter (fun s => s.type == "function" && s.name == n)).getLast? with
      | some s => some (resOf code s)
      | none => none := by
  unfold extract_resource_dependencies
  rw [foldl_extractStep_op_lookup]
  cases (symbols.filter (fun s => s.type == "function" && s.name == n)).getLast? <;> simp [lookupEntry]

/-! ## Lemmas about the body-slice boundary search -/

theorem findBd_some_spec :
    ∀ (ls : List (List Char)) (i j : Nat), findBd ls i = some j →
      i ≤ j ∧ j - i < ls.length ∧ isBoundary (ls.getD (j - i) []) = true ∧
        ∀ t, t < j - i → isBoundary (ls.getD t []) = false := by
  intro ls
  induction ls with
  | nil => intro i j h; simp [findBd] at h
  | cons l rest ih =>
    intro i j h
    unfold findBd at h
    split at h
    · next hb =>
      cases h
      refine ⟨Nat.le_refl _, ?_, ?_, ?_⟩
      · simp
      · simpa using hb
      · intro t ht; omega
    · next hb =>
      obtain ⟨h1, h2, h3, h4⟩ := ih (i + 1) j h
      have hij : i + 1 ≤ j := h1
      refine ⟨by omega, by simp; omega, ?_, ?_⟩
      · have : j - i = (j - (i + 1)) + 1 := by omega
        rw [this]
        simpa using h3
      · intro t ht
        cases t with
        | zero => simpa using Bool.of_not_eq_true hb
        | succ t' =>
          have : t' < j - (i + 1) := by omega
          simpa using h4 t' this

theorem findBd_none_spec :
    ∀ (ls : List (List Char)) (i : Nat), findBd ls i = none →
      ∀ t, t < ls.length → isBoundary (ls.getD t []) = false := by
  intro ls
  induction ls with
  | nil => intro i _ t ht; simp at ht
  | cons l rest ih =>
    intro i h t ht
    unfold findBd at h
    split at h
    · exact absurd h (by simp)
    · next hb =>
      cases t with
      | zero => simpa using Bool.of_not_eq_true hb
      | succ t' =>
        have : t' < rest.length := by simpa using ht
        simpa using ih (i + 1) h t' this

theorem getD_drop_lines (l : List (List Char)) (n t : Nat) :
    (l.drop n).getD t [] = l.getD (n + t) [] := by
  induction n generalizing l with
  | zero => simp
  | succ n ih =>
    cases l with
    | nil => simp
    | cons a rest =>
      have : n + 1 + t = (n + t) + 1 := by omega
      rw [this]
      exact ih rest

/-! ## A name can appear at most once among nodup function names -/

theorem nodup_all_eq_length_le_one {l : List String} {n : String}
    (h : l.Nodup) (ha : ∀ x ∈ l, x = n) : l.length ≤ 1 := by
  cases l with
  | nil => simp
  | cons a rest =>
    cases rest with
    | nil => simp
    | cons b t =>
      have hab : a ≠ b := by
        have := List.nodup_cons.mp h
        exact fun e => this.1 (e ▸ List.mem_cons_self b t)
      have ha' : a = n := ha a (List.mem_cons_self _ _)
      have hb' : b = n := ha b (List.mem_cons.mpr (Or.inr (List.mem_cons_self _ _)))
      exact absurd (ha'.trans hb'.symm) hab

theorem map_name_filter (fl : List CodeSymbol) (n : String) :
    (fl.filter (fun s => s.name == n)).map (fun s => s.name) =
      (fl.map (fun s => s.name)).filter (fun x => x == n) := by
  induction fl with
  | nil => simp
  | cons s t ih =>
    by_cases hn : s.name = n <;> simp [List.filter_cons, hn, ih]

theorem filter_name_length_le_one (symbols : List CodeSymbol) (n : String)
    (h : (FnNames symbols).Nodup) :
    (symbols.filter (fun s => s.type == "function" && s.name == n)).length ≤ 1 := by
  have hff : symbols.filter (fun s => s.type == "function" && s.name == n) =
      (symbols.filter (fun s => s.type == "function")).filter (fun s => s.name == n) := by
    rw [List.filter_filter]
    refine List.filter_congr ?_
    intro a _
    exact Bool.and_comm _ _
  have hlen : (symbols.filter (fun s => s.type == "function" && s.name == n)).length =
      ((FnNames symbols).filter (fun x => x == n)).length := by
    rw [hff, ← List.length_map _ (fun s : CodeSymbol => s.name), map_name_filter]
    rfl
  rw [hlen]
  refine nodup_all_eq_length_le_one (n := n) (h.filter _) ?_
  intro x hx
  have := List.mem_filter.mp hx
  exact eq_of_beq this.2

/-! ## Concrete inputs used by the claims -/

/-- A single-quote character as a string, for building test inputs. -/
def sqt : String := Char.toString (Char.ofNat 39)

/-- Scenario A input: `def f(x, y):` followed by `    open('a.txt')`. -/
def textA : String := "def f(x, y):\n    open(" ++ sqt ++ "a.txt" ++ sqt ++ ")\n"

/-- A function whose body mentions the bare word `config_file`. -/
def textCfg : String := "def g():\n    config_file = 1"

/-- Two zero-parameter functions, each triggering the database pattern
exactly once. -/
def textDb : String := "def f1():\n    connect()\ndef f2():\n    query()\n"

/-- Two functions triggering the database pattern once each, with
different resource-set sizes at the moment of the match. -/
def textDb2 : String := "def g1(x):\n    connect()\ndef g2():\n    query()\n"

/-- A declaration preceded by a blank line. -/
def textBlank : String := "\ndef f():\n    pass"

/-- Two function symbols with the same name `f`. -/
def textDup : String := "def f(a):\n    pass\ndef f(b):\n    pass"

/-- Malformed input containing no declaration. -/
def textBad : String := "@@@ not python ((\n123"

/-! ## Claim theorems -/

/-- C2 (counterexample): on the Scenario A text, symbol extraction does
return exactly one Function symbol `f` at line 1, but the extracted
resource set for `f` does not contain `a.txt`: the file pattern
`\.open\s*\(...` requires a dot before `open`, and the call here is a
bare `open('a.txt')`. -/
theorem scenario_a_missing_file_resource :
    parse_symbols textA = [⟨"f", "function", 1⟩] ∧
    "a.txt" ∉ lookupD (extract_resource_dependencies (parse_symbols textA) textA).2 "f" := by
  constructor
  · decide
  · decide

/-- C2 (amended): on the Scenario A text, symbol extraction returns
exactly one Function symbol `f` at line 1, and the resource set extracted
for `f` is exactly `{x, y}`: the parameters are included but the file
literal `a.txt` is not, because the file pattern only matches dotted
`.open(` calls. -/
theorem scenario_a_amended :
    parse_symbols textA = [⟨"f", "function", 1⟩] ∧
    "x" ∈ lookupD (extract_resource_dependencies (parse_symbols textA) textA).2 "f" ∧
    "y" ∈ lookupD (extract_resource_dependencies (parse_symbols textA) textA).2 "f" ∧
    (lookupD (extract_resource_dependencies (parse_symbols textA) textA).2 "f").length = 2 ∧
    "a.txt" ∉ lookupD (extract_resource_dependencies (parse_symbols textA) textA).2 "f" := by
  refine ⟨by decide, by decide, by decide, by decide, by decide⟩

/-- C3 (counterexample): for the body line `config_file = 1` the config
pattern adds `config` — the capture group `(config|settings|...)`
excludes the trailing `\w*` — and not the full matched word
`config_file`, contradicting the claim. -/
theorem config_pattern_adds_head_not_word :
    "config_file" ∉ extract_resources_from_function textCfg.toList ∧
    "config" ∈ extract_resources_from_function textCfg.toList := by
  constructor
  · decide
  · decide

/-- C3 (amended): for every non-comment body line, every string the
config pattern contributes to the function's resource set is the matched
capture-group alternative itself — one of `config`, `settings`,
`resource`, `data_`, `input_`, `output_` (lower-cased) — rather than the
full `\w*` word, and each such match is indeed added to the result
set. -/
theorem config_pattern_amended (funcCode : List Char) (line : List Char)
    (hl : line ∈ splitOnChar '\n' funcCode)
    (hc : ¬startsWithChars (stripChars line) ("#".toList) = true)
    (m : String) (hm : m ∈ configFindall (lowerChars line)) :
    m ∈ extract_resources_from_function funcCode ∧ m ∈ cfgNames := by
  constructor
  · unfold extract_resources_from_function
    exact mem_foldl_processResourceLine_of_config _ _ _ _ hl hc hm
  · exact configFindallAux_subset _ _ _ hm

/-- Witness for C3: instantiating the amended claim on the
`config_file = 1` line of `textCfg`. -/
theorem config_pattern_amended_witness :
    "config" ∈ extract_resources_from_function textCfg.toList ∧ "config" ∈ cfgNames :=
  config_pattern_amended textCfg.toList ("    config_file = 1".toList)
    (by decide) (by decide) "config" (by decide)

/-- C4 (counterexample): in `textDb` both functions trigger the database
pattern exactly once, yet `resource_to_operations` contains a single
synthesized id `database_0` mapped to both operations — the synthesized
suffix is each function's own resource-set size at the match, which is 0
for both — contradicting "two distinct ids, each mapped to exactly one
operation". -/
theorem database_ids_shared_counterexample :
    keyList (extract_resource_dependencies (parse_symbols textDb) textDb).1 =
      ["database_0"] ∧
    "f1" ∈ lookupD (extract_resource_dependencies (parse_symbols textDb) textDb).1 "database_0" ∧
    "f2" ∈ lookupD (extract_resource_dependencies (parse_symbols textDb) textDb).1 "database_0" ∧
    (lookupD (extract_resource_dependencies (parse_symbols textDb) textDb).1 "database_0").length = 2 := by
  refine ⟨by decide, by decide, by decide, by decide⟩

/-- C4 (amended): two functions each triggering the database pattern once
synthesize `database_<n>` with `n` each function's own accumulated
resource-set size at the match.  When the sizes coincide (both 0 in
`textDb`) the two functions share one id mapped to both operations; when
they differ (`textDb2`, where `g1` already holds its parameter `x`) the
ids are distinct and each maps to exactly one operation. -/
theorem database_ids_amended :
    keyList (extract_resource_dependencies (parse_symbols textDb) textDb).1 =
      ["database_0"] ∧
    (lookupD (extract_resource_dependencies (parse_symbols textDb) textDb).1 "database_0").length = 2 ∧
    "database_1" ∈ lookupD (extract_resource_dependencies (parse_symbols textDb2) textDb2).2 "g1" ∧
    "database_0" ∈ lookupD (extract_resource_dependencies (parse_symbols textDb2) textDb2).2 "g2" ∧
    lookupD (extract_resource_dependencies (parse_symbols textDb2) textDb2).1 "database_1" = ["g1"] ∧
    lookupD (extract_resource_dependencies (parse_symbols textDb2) textDb2).1 "database_0" = ["g2"] := by
  refine ⟨by decide, by decide, by decide, by decide, by decide, by decide⟩

/-- C5 (code bug): on `textBlank` the `def` keyword is on line 2, but
`parse_symbols` reports line 1: the regex `^\s*...` matches starting at
the blank first line because `\s*` consumes newlines, and the line number
is computed from the match start.  The tree-sitter implementation this
regex simulates (graph_builder.py) reports the identifier's actual
line. -/
theorem parse_symbols_blank_line_failing_input :
    parse_symbols textBlank = [⟨"f", "function", 1⟩] := by
  decide

/-- C1 (counterexample): with two Function symbols both named `f`
(`textDup`), the mirror invariant fails: `f ∈ resource_to_operations[a]`
(from the first symbol, whose parameter is `a`), but
`a ∉ operation_to_resources[f]`, because the second symbol's assignment
overwrote the entry with `{b}`. -/
theorem mirror_fails_on_duplicate_names :
    "f" ∈ lookupD (extract_resource_dependencies (parse_symbols textDup) textDup).1 "a" ∧
    "a" ∉ lookupD (extract_resource_dependencies (parse_symbols textDup) textDup).2 "f" := by
  refine ⟨by decide, by decide⟩

/-- C1 (amended): for every symbol list in which no two Function symbols
share a name, and every source text, after
`extract_resource_dependencies` the mirror invariant holds: for all
operations `o` and resources `r`, `r ∈ operation_to_resources[o]` iff
`o ∈ resource_to_operations[r]`.  (With duplicate Function names the
equivalence can fail, as the counterexample shows.) -/
theorem mirror_invariant_of_nodup_names (symbols : List CodeSymbol) (code : String)
    (h : (FnNames symbols).Nodup) (o r : String) :
    r ∈ lookupD (extract_resource_dependencies symbols code).2 o ↔
      o ∈ lookupD (extract_resource_dependencies symbols code).1 r := by
  rw [extract_res_mem_iff]
  have hop := extract_op_lookup symbols code o
  have hle := filter_name_length_le_one symbols o h
  rcases hfl : symbols.filter (fun s => s.type == "function" && s.name == o) with _ | ⟨s0, rest⟩
  · rw [hfl] at hop
    have hval : lookupD (extract_resource_dependencies symbols code).2 o = [] := by
      simp [lookupD, hop]
    rw [hval]
    simp only [List.not_mem_nil, false_iff]
    rintro ⟨s, hs, h1, h2, h3⟩
    have hmem : s ∈ symbols.filter (fun s => s.type == "function" && s.name == o) := by
      rw [List.mem_filter]
      exact ⟨hs, by simp [h1, h2]⟩
    rw [hfl] at hmem
    simp at hmem
  · have hrest : rest = [] := by
      rw [hfl] at hle
      simp only [List.length_cons] at hle
      exact List.length_eq_zero.mp (by omega)
    subst hrest
    rw [hfl] at hop
    simp only [List.getLast?_singleton] at hop
    have hs0mem : s0 ∈ symbols.filter (fun s => s.type == "function" && s.name == o) := by
      rw [hfl]
      exact List.mem_singleton_self _
    have hs0 := List.mem_filter.mp hs0mem
    obtain ⟨hb1, hb2⟩ := Bool.and_eq_true_iff.mp hs0.2
    have ht : s0.type = "function" := eq_of_beq hb1
    have hn : s0.name = o := eq_of_beq hb2
    have hval : lookupD (extract_resource_dependencies symbols code).2 o = resOf code s0 := by
      simp [lookupD, hop]
    rw [hval]
    constructor
    · intro hr
      exact ⟨s0, hs0.1, ht, hn, hr⟩
    · rintro ⟨s, hs, h1, h2, h3⟩
      have hmem : s ∈ symbols.filter (fun s => s.type == "function" && s.name == o) := by
        rw [List.mem_filter]
        exact ⟨hs, by simp [h1, h2]⟩
      rw [hfl] at hmem
      rw [List.mem_singleton.mp hmem] at h3
      exact h3

/-- Witness for C1: the amended mirror invariant instantiated on the
Scenario A text (one function symbol, so the names are trivially
duplicate-free). -/
theorem mirror_invariant_nodup_witness :
    "x" ∈ lookupD (extract_resource_dependencies (parse_symbols textA) textA).2 "f" ↔
      "f" ∈ lookupD (extract_resource_dependencies (parse_symbols textA) textA).1 "x" :=
  mirror_invariant_of_nodup_names (parse_symbols textA) textA (by decide) "f" "x"

/-- C10: for every symbol list containing two or more Function symbols
named `n` (and any text), `operation_to_resources[n]` is the resource set
computed for the last such symbol in list order, while
`resource_to_operations` still maps every resource of each such symbol
(including the earlier, overwritten ones) back to `n`. -/
theorem duplicate_names_last_wins (symbols : List CodeSymbol) (code : String) (n : String)
    (h2 : 2 ≤ (symbols.filter (fun s => s.type == "function" && s.name == n)).length) :
    (∃ s0, (symbols.filter (fun s => s.type == "function" && s.name == n)).getLast? = some s0 ∧
       lookupEntry (extract_resource_dependencies symbols code).2 n = some (resOf code s0)) ∧
    (∀ s ∈ symbols.filter (fun s => s.type == "function" && s.name == n),
       ∀ r ∈ resOf code s, n ∈ lookupD (extract_resource_dependencies symbols code).1 r) := by
  constructor
  · have hne : symbols.filter (fun s => s.type == "function" && s.name == n) ≠ [] := by
      intro e
      rw [e] at h2
      simp at h2
    obtain ⟨s0, hs0⟩ :=
      Option.isSome_iff_exists.mp (List.getLast?_isSome.mpr hne)
    refine ⟨s0, hs0, ?_⟩
    rw [extract_op_lookup, hs0]
  · intro s hs r hr
    obtain ⟨hmem, hp⟩ := List.mem_filter.mp hs
    obtain ⟨hb1, hb2⟩ := Bool.and_eq_true_iff.mp hp
    exact (extract_res_mem_iff _ _ _ _).mpr
      ⟨s, hmem, eq_of_beq hb1, eq_of_beq hb2, hr⟩

/-- Witness for C10: on `textDup` the resource `a` of the first (earlier,
overwritten) symbol `f` still maps back to `f` in
`resource_to_operations`. -/
theorem duplicate_names_last_wins_witness :
    "f" ∈ lookupD (extract_resource_dependencies (parse_symbols textDup) textDup).1 "a" :=
  (duplicate_names_last_wins (parse_symbols textDup) textDup "f" (by decide)).2
    ⟨"f", "function", 1⟩ (by decide) "a" (by decide)

/-- C9: all core operations are total functions of their input (the
embedding is built from total functions, mirroring the exception-free
source), and when no declaration matches, every stage degrades to empty
collections: empty symbol list implies empty mirrored mappings, an empty
graph, and zeroed insights. -/
theorem degrade_to_empty_collections (code : String) (h : parse_symbols code = []) :
    extract_resource_dependencies (parse_symbols code) code = ([], []) ∧
    build_dependency_graph (extract_resource_dependencies (parse_symbols code) code).1
      (extract_resource_dependencies (parse_symbols code) code).2 = ⟨[], []⟩ ∧
    (analyze_dependencies (extract_resource_dependencies (parse_symbols code) code).1
      (extract_resource_dependencies (parse_symbols code) code).2).total_operations = 0 ∧
    (analyze_dependencies (extract_resource_dependencies (parse_symbols code) code).1
      (extract_resource_dependencies (parse_symbols code) code).2).total_resources = 0 ∧
    (analyze_dependencies (extract_resource_dependencies (parse_symbols code) code).1
      (extract_resource_dependencies (parse_symbols code) code).2).critical_resources = [] := by
  rw [h]
  exact ⟨rfl, rfl, rfl, rfl, rfl⟩

/-- Witness for C9: the malformed text `textBad` produces no symbols and
empty mappings. -/
theorem degrade_to_empty_witness :
    parse_symbols textBad = [] ∧
    extract_resource_dependencies (parse_symbols textBad) textBad = ([], []) :=
  ⟨by decide, (degrade_to_empty_collections textBad (by decide)).1⟩

/-- Helper for C7: in a usage list with duplicate-free keys, `find?`
retrieves exactly the entry that is a member. -/
theorem find?_usage_of_nodup {usage : List (String × Nat)} {p : String × Nat}
    (hnd : (usage.map (fun q => q.1)).Nodup) (hp : p ∈ usage) :
    usage.find? (fun q => q.1 = p.1) = some p := by
  induction usage with
  | nil => simp at hp
  | cons q rest ih =>
    rcases List.mem_cons.mp hp with h | h
    · subst h
      simp [List.find?]
    · have hq : q.1 ≠ p.1 := by
        intro e
        have : q.1 ∈ rest.map (fun q => q.1) := e ▸ List.mem_map_of_mem _ h
        exact (List.nodup_cons.mp hnd).1 this
      have := ih (List.nodup_cons.mp hnd).2 h
      simp [List.find?, hq, this]

/-- C7: every id in `critical_resources` has a usage count strictly
greater than `1.5` times the mean of all resource usage counts (the
mean `sum / len` taken exactly, over `ℚ`), and an empty resource set
yields empty `critical_resources` without any division. -/
theorem critical_resources_threshold (resDeps opRes : DepMap)
    (hnd : (keyList resDeps).Nodup) :
    (analyze_dependencies [] opRes).critical_resources = [] ∧
    ∀ r ∈ (analyze_dependencies resDeps opRes).critical_resources,
      ((usageOf (analyze_dependencies resDeps opRes) r : ℚ) >
        (3 / 2) * ((((analyze_dependencies resDeps opRes).resource_usage.map
            (fun p => p.2)).sum : ℚ) /
          ((analyze_dependencies resDeps opRes).resource_usage.length : ℚ))) := by
  constructor
  · rfl
  · intro r hr
    set usage := resDeps.map (fun p => (p.1, p.2.length)) with husage
    have hru : (analyze_dependencies resDeps opRes).resource_usage = usage := rfl
    have hcrit : (analyze_dependencies resDeps opRes).critical_resources =
        if (resDeps.length > 0 && !usage.isEmpty) = true then
          (usage.filter (fun p =>
            decide (2 * p.2 * usage.length > 3 * (usage.map (fun p => p.2)).sum))).map
              (fun p => p.1)
        else [] := rfl
    by_cases hc : (resDeps.length > 0 && !usage.isEmpty) = true
    · rw [hcrit, if_pos hc] at hr
      obtain ⟨p, hpf, hpr⟩ := List.mem_map.mp hr
      obtain ⟨hpu, hpred⟩ := List.mem_filter.mp hpf
      have hnum : 2 * p.2 * usage.length > 3 * (usage.map (fun p => p.2)).sum :=
        of_decide_eq_true hpred
      have hkeys : (usage.map (fun q => q.1)).Nodup := by
        rw [husage, List.map_map]
        exact hnd
      have hfind : usage.find? (fun q => q.1 = p.1) = some p :=
        find?_usage_of_nodup hkeys hpu
      have husageOf : usageOf (analyze_dependencies resDeps opRes) r = p.2 := by
        unfold usageOf
        rw [hru, ← hpr, hfind]
        rfl
      rw [hru, husageOf]
      have hlen : 0 < usage.length := List.length_pos.mpr (List.ne_nil_of_mem hpu)
      set Sq : ℚ := (usage.map (fun p => (p.2 : ℚ))).sum with hSq
      have hsum : Sq = (((usage.map (fun p => p.2)).sum : ℕ) : ℚ) := by
        rw [hSq, Nat.cast_list_sum, List.map_map, husage, List.map_map]
        simp [Function.comp_def]
      have hq : 3 * Sq < 2 * (p.2 : ℚ) * (usage.length : ℚ) := by
        rw [hsum]
        exact_mod_cast hnum
      have hlq : (0 : ℚ) < (usage.length : ℚ) := by exact_mod_cast hlen
      rw [gt_iff_lt]
      have h2 : (3 / 2 : ℚ) * (Sq / (usage.length : ℚ)) =
          (3 * Sq) / (2 * (usage.length : ℚ)) := by
        field_simp
      rw [h2, div_lt_iff₀ (by positivity)]
      nlinarith [hq]
    · rw [hcrit, if_neg hc] at hr
      simp at hr

/-- Witness for C7: the empty index yields no critical resources, and in
a concrete index where `a` is used by 3 of 5 total usages, `a` is
critical and its count exceeds `1.5 ×` the mean. -/
theorem critical_resources_threshold_witness :
    (analyze_dependencies [] []).critical_resources = [] ∧
    ((usageOf (analyze_dependencies [("a", ["f", "g", "h"]), ("b", ["f"]), ("c", ["g"])] []) "a" : ℚ) >
      (3 / 2) * ((((analyze_dependencies [("a", ["f", "g", "h"]), ("b", ["f"]), ("c", ["g"])] []).resource_usage.map
          (fun p => p.2)).sum : ℚ) /
        ((analyze_dependencies [("a", ["f", "g", "h"]), ("b", ["f"]), ("c", ["g"])] []).resource_usage.length : ℚ))) :=
  ⟨(critical_resources_threshold [] [] (by decide)).1,
   (critical_resources_threshold [("a", ["f", "g", "h"]), ("b", ["f"]), ("c", ["g"])] []
      (by decide)).2 "a" (by decide)⟩

/-- C8: for every line list and 0-based start index (the symbol's
declaration line), the extractor's body slice
`lines[start_line:end_line]` starts at the declaration line and ends
immediately before the first later line whose stripped text begins with
`def `, `class ` or `async def `, or at end-of-text when no such line
exists: `funcEndLine` is the least boundary index after `start` (or the
line count), and `funcBody` joins exactly that slice. -/
theorem body_slice_boundary_spec (lines : List (List Char)) (start : Nat) :
    (funcEndLine lines start = lines.length ∨
      (start + 1 ≤ funcEndLine lines start ∧ funcEndLine lines start < lines.length ∧
        isBoundary (lines.getD (funcEndLine lines start) []) = true)) ∧
    (∀ j, start + 1 ≤ j → j < funcEndLine lines start → j < lines.length →
      isBoundary (lines.getD j []) = false) ∧
    funcBody lines start =
      joinLines ((lines.drop start).take (funcEndLine lines start - start)) := by
  rcases hf : findBd (lines.drop (start + 1)) (start + 1) with _ | j
  · have hk : funcEndLine lines start = lines.length := by
      unfold funcEndLine
      rw [hf]
    refine ⟨Or.inl hk, ?_, rfl⟩
    intro jj hj1 hj2 hj3
    have hlt : jj - (start + 1) < (lines.drop (start + 1)).length := by
      rw [List.length_drop]
      omega
    have := findBd_none_spec _ _ hf (jj - (start + 1)) hlt
    rw [getD_drop_lines] at this
    have he : start + 1 + (jj - (start + 1)) = jj := by omega
    rw [he] at this
    exact this
  · have hk : funcEndLine lines start = j := by
      unfold funcEndLine
      rw [hf]
    obtain ⟨h1, h2, h3, h4⟩ := findBd_some_spec _ _ _ hf
    rw [List.length_drop] at h2
    refine ⟨Or.inr ⟨hk ▸ h1, ?_, ?_⟩, ?_, rfl⟩
    · rw [hk]
      omega
    · rw [hk]
      rw [getD_drop_lines] at h3
      have he : start + 1 + (j - (start + 1)) = j := by omega
      rw [he] at h3
      exact h3
    · intro jj hj1 hj2 hj3
      rw [hk] at hj2
      have := h4 (jj - (start + 1)) (by omega)
      rw [getD_drop_lines] at this
      have he : start + 1 + (jj - (start + 1)) = jj := by omega
      rw [he] at this
      exact this

/-! ## Index invariants needed for the graph-size analysis -/

theorem mem_of_lookupD {m : DepMap} {k x : String} (h : x ∈ lookupD m k) :
    ∃ p ∈ m, p.1 = k ∧ x ∈ p.2 := by
  induction m with
  | nil => simp [lookupD, lookupEntry] at h
  | cons p rest ih =>
    obtain ⟨k1, v1⟩ := p
    by_cases hk : k1 = k
    · subst hk
      simp only [lookupD, lookupEntry, if_pos rfl, Option.getD_some] at h
      exact ⟨(k1, v1), List.mem_cons_self _ _, rfl, h⟩
    · simp only [lookupD, lookupEntry, if_neg hk] at h
      obtain ⟨p, hp, h1, h2⟩ := ih h
      exact ⟨p, List.mem_cons_of_mem _ hp, h1, h2⟩

theorem keyList_addToEntry_nodup {m : DepMap} {k v : String}
    (h : (keyList m).Nodup) : (keyList (addToEntry m k v)).Nodup := by
  rw [keyList_addToEntry]
  split
  · exact h
  · next hm =>
    refine h.append (List.nodup_singleton k) ?_
    intro a ha hb
    simp only [List.mem_singleton] at hb
    exact hm (hb ▸ ha)

theorem keyList_setEntry_nodup {m : DepMap} {k : String} {v : List String}
    (h : (keyList m).Nodup) : (keyList (setEntry m k v)).Nodup := by
  rw [keyList_setEntry]
  split
  · exact h
  · next hm =>
    refine h.append (List.nodup_singleton k) ?_
    intro a ha hb
    simp only [List.mem_singleton] at hb
    exact hm (hb ▸ ha)

theorem mem_keyList_setEntry_of_mem {m : DepMap} {k x : String} {v : List String}
    (h : x ∈ keyList m) : x ∈ keyList (setEntry m k v) := by
  rw [keyList_setEntry]
  split
  · exact h
  · exact List.mem_append_left _ h

theorem self_mem_keyList_setEntry (m : DepMap) (k : String) (v : List String) :
    k ∈ keyList (setEntry m k v) := by
  rw [keyList_setEntry]
  split
  · next hm => exact hm
  · exact List.mem_append_right _ (List.mem_singleton_self _)

theorem addToEntry_entry_prop {m : DepMap} {k v : String}
    (P : String → Prop)
    (h : ∀ p ∈ m, p.2.Nodup ∧ ∀ x ∈ p.2, P x) (hv : P v) :
    ∀ p ∈ addToEntry m k v, p.2.Nodup ∧ ∀ x ∈ p.2, P x := by
  induction m with
  | nil =>
    intro p hp
    simp only [addToEntry, List.mem_singleton] at hp
    subst hp
    exact ⟨List.nodup_singleton v, fun x hx => (List.mem_singleton.mp hx) ▸ hv⟩
  | cons q rest ih =>
    obtain ⟨k1, v1⟩ := q
    intro p hp
    by_cases hk : k1 = k
    · rw [show addToEntry ((k1, v1) :: rest) k v = (k1, insertNew v1 v) :: rest by
        simp [addToEntry, hk]] at hp
      rcases List.mem_cons.mp hp with h1 | h1
      · subst h1
        obtain ⟨hn, hP⟩ := h (k1, v1) (List.mem_cons_self _ _)
        refine ⟨insertNew_nodup hn, ?_⟩
        intro x hx
        rcases mem_insertNew.mp hx with h2 | h2
        · exact hP x h2
        · exact h2 ▸ hv
      · exact h p (List.mem_cons_of_mem _ h1)
    · rw [show addToEntry ((k1, v1) :: rest) k v = (k1, v1) :: addToEntry rest k v by
        simp [addToEntry, hk]] at hp
      rcases List.mem_cons.mp hp with h1 | h1
      · exact h1 ▸ h (k1, v1) (List.mem_cons_self _ _)
      · exact ih (fun p hp => h p (List.mem_cons_of_mem _ hp)) p h1

theorem foldAdd_entry_prop {R : List String} {m : DepMap} {v : String}
    (P : String → Prop)
    (h : ∀ p ∈ m, p.2.Nodup ∧ ∀ x ∈ p.2, P x) (hv : P v) :
    ∀ p ∈ R.foldl (fun m' r' => addToEntry m' r' v) m, p.2.Nodup ∧ ∀ x ∈ p.2, P x := by
  induction R generalizing m with
  | nil => exact h
  | cons r0 rs ih =>
    simp only [List.foldl_cons]
    exact ih (addToEntry_entry_prop P h hv)

theorem foldAdd_keyList_nodup {R : List String} {m : DepMap} {v : String}
    (h : (keyList m).Nodup) :
    (keyList (R.foldl (fun m' r' => addToEntry m' r' v) m)).Nodup := by
  induction R generalizing m with
  | nil => exact h
  | cons r0 rs ih =>
    simp only [List.foldl_cons]
    exact ih (keyList_addToEntry_nodup h)

/-- The joint structural invariant of the two mirrored mappings after any
run of the extraction fold: duplicate-free keys on both sides,
duplicate-free operation sets, and every operation recorded under a
resource is a key of `operation_to_resources`. -/
def IndexInv (st : DepMap × DepMap) : Prop :=
  (keyList st.1).Nodup ∧ (keyList st.2).Nodup ∧
  ∀ p ∈ st.1, p.2.Nodup ∧ ∀ x ∈ p.2, x ∈ keyList st.2

theorem extractStep_inv {code : String} {st : DepMap × DepMap} {s : CodeSymbol}
    (h : IndexInv st) : IndexInv (extractStep code st s) := by
  obtain ⟨h1, h2, h3⟩ := h
  by_cases hf : s.type = "function"
  · have hstep : extractStep code st s =
        ((resOf code s).foldl (fun m' r' => addToEntry m' r' s.name) st.1,
         setEntry st.2 s.name (resOf code s)) := by
      simp [extractStep, hf]
    rw [hstep]
    refine ⟨foldAdd_keyList_nodup h1, keyList_setEntry_nodup h2, ?_⟩
    exact foldAdd_entry_prop (fun x => x ∈ keyList (setEntry st.2 s.name (resOf code s)))
      (fun p hp => ⟨(h3 p hp).1, fun x hx => mem_keyList_setEntry_of_mem ((h3 p hp).2 x hx)⟩)
      (self_mem_keyList_setEntry _ _ _)
  · have hstep : extractStep code st s = st := by
      simp [extractStep, hf]
    rw [hstep]
    exact ⟨h1, h2, h3⟩

theorem foldl_extractStep_inv :
    ∀ (symbols : List CodeSymbol) (st : DepMap × DepMap) (code : String),
      IndexInv st → IndexInv (symbols.foldl (extractStep code) st) := by
  intro symbols
  induction symbols with
  | nil => exact fun _ _ h => h
  | cons s rest ih =>
    intro st code h
    simp only [List.foldl_cons]
    exact ih _ _ (extractStep_inv h)

theorem extract_inv (symbols : List CodeSymbol) (code : String) :
    IndexInv (extract_resource_dependencies symbols code) := by
  unfold extract_resource_dependencies
  refine foldl_extractStep_inv _ _ _ ?_
  refine ⟨List.nodup_nil, List.nodup_nil, ?_⟩
  intro p hp
  simp at hp

/-! ## Pair counting for the edge-count analysis -/

theorem pairCount_addToEntry_of_not_mem {m : DepMap} {k v : String}
    (hv : v ∉ lookupD m k) :
    pairCount (addToEntry m k v) = pairCount m + 1 := by
  induction m with
  | nil => simp [addToEntry, pairCount]
  | cons q rest ih =>
    obtain ⟨k1, v1⟩ := q
    by_cases hk : k1 = k
    · subst hk
      have hv' : v ∉ v1 := by simpa [lookupD, lookupEntry] using hv
      have heq : addToEntry ((k1, v1) :: rest) k1 v = (k1, insertNew v1 v) :: rest := by
        simp [addToEntry]
      rw [heq]
      simp only [pairCount, List.map_cons, List.sum_cons]
      rw [insertNew_length_of_not_mem hv']
      omega
    · have hv' : v ∉ lookupD rest k := by
        simpa [lookupD, lookupEntry, hk] using hv
      simp only [addToEntry, if_neg hk, pairCount, List.map_cons, List.sum_cons]
      have := ih hv'
      unfold pairCount at this
      omega

theorem pairCount_setEntry_of_not_mem {m : DepMap} {k : String} {v : List String}
    (h : k ∉ keyList m) :
    pairCount (setEntry m k v) = pairCount m + v.length := by
  induction m with
  | nil => simp [setEntry, pairCount]
  | cons q rest ih =>
    obtain ⟨k1, v1⟩ := q
    have hk : k1 ≠ k := by
      intro e
      exact h (List.mem_cons.mpr (Or.inl e.symm))
    have h' : k ∉ keyList rest := fun e => h (List.mem_cons_of_mem _ e)
    simp only [setEntry, if_neg hk, pairCount, List.map_cons, List.sum_cons]
    have := ih h'
    unfold pairCount at this
    omega

theorem pairCount_foldAdd {R : List String} {m : DepMap} {v : String}
    (hR : R.Nodup) (hv : ∀ r ∈ R, v ∉ lookupD m r) :
    pairCount (R.foldl (fun m' r' => addToEntry m' r' v) m) = pairCount m + R.length := by
  induction R generalizing m with
  | nil => simp
  | cons r0 rs ih =>
    simp only [List.foldl_cons]
    have h0 : v ∉ lookupD m r0 := hv r0 (List.mem_cons_self _ _)
    have hrs : ∀ r ∈ rs, v ∉ lookupD (addToEntry m r0 v) r := by
      intro r hr
      have hne : r ≠ r0 := by
        intro e
        exact (List.nodup_cons.mp hR).1 (e ▸ hr)
      rw [lookupD, lookupEntry_addToEntry_ne hne]
      exact hv r (List.mem_cons_of_mem _ hr)
    rw [ih (List.nodup_cons.mp hR).2 hrs, pairCount_addToEntry_of_not_mem h0]
    simp only [List.length_cons]
    omega

theorem addToEntry_values_prop {m : DepMap} {k v : String} (P : String → Prop)
    (h : ∀ p ∈ m, ∀ x ∈ p.2, P x) (hv : P v) :
    ∀ p ∈ addToEntry m k v, ∀ x ∈ p.2, P x := by
  induction m with
  | nil =>
    intro p hp
    simp only [addToEntry, List.mem_singleton] at hp
    subst hp
    intro x hx
    exact (List.mem_singleton.mp hx) ▸ hv
  | cons q rest ih =>
    obtain ⟨k1, v1⟩ := q
    intro p hp
    by_cases hk : k1 = k
    · rw [show addToEntry ((k1, v1) :: rest) k v = (k1, insertNew v1 v) :: rest by
        simp [addToEntry, hk]] at hp
      rcases List.mem_cons.mp hp with h1 | h1
      · subst h1
        intro x hx
        rcases mem_insertNew.mp hx with h2 | h2
        · exact h (k1, v1) (List.mem_cons_self _ _) x h2
        · exact h2 ▸ hv
      · exact h p (List.mem_cons_of_mem _ h1)
    · rw [show addToEntry ((k1, v1) :: rest) k v = (k1, v1) :: addToEntry rest k v by
        simp [addToEntry, hk]] at hp
      rcases List.mem_cons.mp hp with h1 | h1
      · exact h1 ▸ h (k1, v1) (List.mem_cons_self _ _)
      · exact ih (fun p hp => h p (List.mem_cons_of_mem _ hp)) p h1

theorem foldAdd_values_prop {R : List String} {m : DepMap} {v : String}
    (P : String → Prop)
    (h : ∀ p ∈ m, ∀ x ∈ p.2, P x) (hv : P v) :
    ∀ p ∈ R.foldl (fun m' r' => addToEntry m' r' v) m, ∀ x ∈ p.2, P x := by
  induction R generalizing m with
  | nil => exact h
  | cons r0 rs ih =>
    simp only [List.foldl_cons]
    exact ih (addToEntry_values_prop P h hv)

theorem foldl_pairCount_eq :
    ∀ (symbols : List CodeSymbol) (st : DepMap × DepMap) (seen : List String) (code : String),
      pairCount st.1 = pairCount st.2 →
      (∀ p ∈ st.1, ∀ x ∈ p.2, x ∈ seen) →
      (∀ k ∈ keyList st.2, k ∈ seen) →
      (FnNames symbols).Nodup →
      (∀ s ∈ symbols, s.type = "function" → s.name ∉ seen) →
      pairCount (symbols.foldl (extractStep code) st).1 =
        pairCount (symbols.foldl (extractStep code) st).2 := by
  intro symbols
  induction symbols with
  | nil => exact fun _ _ _ h _ _ _ _ => h
  | cons s rest ih =>
    intro st seen code hpc hval hkey hnd hfresh
    simp only [List.foldl_cons]
    by_cases hf : s.type = "function"
    · have hstep : extractStep code st s =
          ((resOf code s).foldl (fun m' r' => addToEntry m' r' s.name) st.1,
           setEntry st.2 s.name (resOf code s)) := by
        simp [extractStep, hf]
      have hnotseen : s.name ∉ seen := hfresh s (List.mem_cons_self _ _) hf
      have hnames : FnNames (s :: rest) = s.name :: FnNames rest := by
        unfold FnNames
        simp [List.filter_cons, hf]
      rw [hnames] at hnd
      have hnd' := List.nodup_cons.mp hnd
      refine ih _ (s.name :: seen) code ?_ ?_ ?_ hnd'.2 ?_
      · rw [hstep]
        have hR := resOf_nodup code s
        have hvnot : ∀ r ∈ resOf code s, s.name ∉ lookupD st.1 r := by
          intro r hr hin
          obtain ⟨p, hp, _, hx⟩ := mem_of_lookupD hin
          exact hnotseen (hval p hp _ hx)
        rw [pairCount_foldAdd hR hvnot]
        have hknot : s.name ∉ keyList st.2 := fun e => hnotseen (hkey _ e)
        rw [pairCount_setEntry_of_not_mem hknot, hpc]
      · rw [hstep]
        exact foldAdd_values_prop (fun x => x ∈ s.name :: seen)
          (fun p hp x hx => List.mem_cons_of_mem _ (hval p hp x hx))
          (List.mem_cons_self _ _)
      · rw [hstep]
        intro k hk
        rw [keyList_setEntry] at hk
        revert hk
        split
        · exact fun hk => List.mem_cons_of_mem _ (hkey _ hk)
        · intro hk
          rcases List.mem_append.mp hk with h1 | h1
          · exact List.mem_cons_of_mem _ (hkey _ h1)
          · simp only [List.mem_singleton] at h1
            exact h1 ▸ List.mem_cons_self _ _
      · intro s' hs' hf'
        have hne : s'.name ≠ s.name := by
          intro e
          have : s'.name ∈ FnNames rest := by
            unfold FnNames
            exact List.mem_map_of_mem _ (List.mem_filter.mpr ⟨hs', by simp [hf']⟩)
          exact hnd'.1 (e ▸ this)
        intro hin
        rcases List.mem_cons.mp hin with h1 | h1
        · exact hne h1
        · exact hfresh s' (List.mem_cons_of_mem _ hs') hf' h1
    · have hstep : extractStep code st s = st := by
        simp [extractStep, hf]
      have hnames : FnNames (s :: rest) = FnNames rest := by
        unfold FnNames
        simp [List.filter_cons, hf]
      rw [hstep]
      exact ih _ seen code hpc hval hkey (hnames ▸ hnd)
        (fun s' hs' hf' => hfresh s' (List.mem_cons_of_mem _ hs') hf')

theorem pairCount_extract_eq (symbols : List CodeSymbol) (code : String)
    (h : (FnNames symbols).Nodup) :
    pairCount (extract_resource_dependencies symbols code).1 =
      pairCount (extract_resource_dependencies symbols code).2 := by
  unfold extract_resource_dependencies
  refine foldl_pairCount_eq symbols ([], []) [] code rfl ?_ ?_ h ?_
  · intro p hp
    simp at hp
  · intro k hk
    simp [keyList] at hk
  · intro s _ _ h
    simp at h

/-! ## Graph construction lemmas -/

theorem nodeIds_addNode (g : DepGraph) (x : String) (t : String) :
    nodeIds (addNode g x t) = if x ∈ nodeIds g then nodeIds g else nodeIds g ++ [x] := by
  unfold addNode
  split
  · unfold nodeIds
    simp only [List.map_map]
    refine List.map_congr_left ?_
    intro p _
    by_cases hp : p.1 = x <;> simp [hp]
  · unfold nodeIds
    simp

theorem edges_addNode (g : DepGraph) (x : String) (t : String) :
    (addNode g x t).edges = g.edges := by
  unfold addNode
  split <;> rfl

theorem ensureNode_of_mem {g : DepGraph} {x : String} (h : x ∈ nodeIds g) :
    ensureNode g x = g := by
  unfold ensureNode
  rw [if_pos h]

theorem addEdge_of_mem {g : DepGraph} {u v : String}
    (hu : u ∈ nodeIds g) (hv : v ∈ nodeIds g) :
    (addEdge g u v).nodes = g.nodes ∧
    (addEdge g u v).edges =
      if (u, v) ∈ g.edges then g.edges else g.edges ++ [(u, v)] := by
  unfold addEdge
  simp only [ensureNode_of_mem hu, ensureNode_of_mem hv]
  by_cases h : (u, v) ∈ g.edges
  · rw [if_pos h]
    exact ⟨rfl, by rw [if_pos h]⟩
  · rw [if_neg h]
    exact ⟨rfl, by rw [if_neg h]⟩

theorem phase1_spec :
    ∀ (entries : DepMap) (g : DepGraph),
      (∀ k ∈ keyList entries, k ∉ nodeIds g) →
      (keyList entries).Nodup →
      nodeIds (entries.foldl (fun g' p => addNode g' p.1 "operation") g) =
          nodeIds g ++ keyList entries ∧
      (entries.foldl (fun g' p => addNode g' p.1 "operation") g).edges = g.edges := by
  intro entries
  induction entries with
  | nil => exact fun g _ _ => ⟨by simp [keyList], rfl⟩
  | cons p rest ih =>
    intro g hfresh hnd
    simp only [List.foldl_cons]
    have hp : p.1 ∉ nodeIds g :=
      hfresh p.1 (List.mem_cons_self _ _)
    have hids : nodeIds (addNode g p.1 "operation") = nodeIds g ++ [p.1] := by
      rw [nodeIds_addNode, if_neg hp]
    have hfresh' : ∀ k ∈ keyList rest, k ∉ nodeIds (addNode g p.1 "operation") := by
      intro k hk
      rw [hids]
      intro hmem
      rcases List.mem_append.mp hmem with h1 | h1
      · exact hfresh k (List.mem_cons_of_mem _ hk) h1
      · simp only [List.mem_singleton] at h1
        have : p.1 ∈ keyList rest := h1 ▸ hk
        exact (List.nodup_cons.mp hnd).1 this
    obtain ⟨h1, h2⟩ := ih (addNode g p.1 "operation") hfresh' (List.nodup_cons.mp hnd).2
    refine ⟨?_, by rw [h2, edges_addNode]⟩
    rw [h1, hids]
    simp [keyList]

theorem edgefold_spec :
    ∀ (ops : List String) (g : DepGraph) (r : String),
      ops.Nodup →
      (∀ op ∈ ops, op ∈ nodeIds g) →
      r ∈ nodeIds g →
      (∀ e ∈ g.edges, e.2 = r → e.1 ∉ ops) →
      (ops.foldl (fun g' op => addEdge g' op r) g).nodes = g.nodes ∧
      (ops.foldl (fun g' op => addEdge g' op r) g).edges.length =
          g.edges.length + ops.length ∧
      (∀ e ∈ (ops.foldl (fun g' op => addEdge g' op r) g).edges,
        e ∈ g.edges ∨ e.2 = r) := by
  intro ops
  induction ops with
  | nil => exact fun g r _ _ _ _ => ⟨rfl, by simp, fun e he => Or.inl he⟩
  | cons op0 rs ih =>
    intro g r hnd hops hr hold
    simp only [List.foldl_cons]
    have hop0 : op0 ∈ nodeIds g := hops op0 (List.mem_cons_self _ _)
    have hnew : (op0, r) ∉ g.edges := by
      intro he
      exact hold (op0, r) he rfl (List.mem_cons_self _ _)
    obtain ⟨hn, hedge⟩ := addEdge_of_mem hop0 hr
    rw [if_neg hnew] at hedge
    have hids : nodeIds (addEdge g op0 r) = nodeIds g := by
      unfold nodeIds
      rw [hn]
    obtain ⟨ih1, ih2, ih3⟩ := ih (addEdge g op0 r) r (List.nodup_cons.mp hnd).2
      (fun op hop => hids ▸ hops op (List.mem_cons_of_mem _ hop))
      (hids ▸ hr)
      (by
        intro e he her
        rw [hedge] at he
        rcases List.mem_append.mp he with h1 | h1
        · intro hmem
          exact hold e h1 her (List.mem_cons_of_mem _ hmem)
        · simp only [List.mem_singleton] at h1
          subst h1
          exact (List.nodup_cons.mp hnd).1)
    refine ⟨by rw [ih1, hn], ?_, ?_⟩
    · rw [ih2, hedge]
      rw [List.length_append, List.length_cons]
      simp only [List.length_cons, List.length_nil]
      omega
    · intro e he
      rcases ih3 e he with h1 | h1
      · rw [hedge] at h1
        rcases List.mem_append.mp h1 with h2 | h2
        · exact Or.inl h2
        · simp only [List.mem_singleton] at h2
          subst h2
          exact Or.inr rfl
      · exact Or.inr h1

theorem filter_split_length (l : List String) (p : String → Bool) :
    (l.filter p).length + (l.filter (fun x => !(p x))).length = l.length := by
  induction l with
  | nil => simp
  | cons a rest ih =>
    by_cases h : p a = true <;> simp [List.filter_cons, h, ← ih] <;> omega

theorem phase2_spec :
    ∀ (entries : DepMap) (g : DepGraph),
      (keyList entries).Nodup →
      (∀ p ∈ entries, p.2.Nodup ∧ ∀ op ∈ p.2, op ∈ nodeIds g) →
      (∀ e ∈ g.edges, e.2 ∉ keyList entries) →
      (entries.foldl
          (fun g' p => p.2.foldl (fun g'' op => addEdge g'' op p.1)
            (addNode g' p.1 "resource")) g).nodes.length =
          g.nodes.length +
            ((keyList entries).filter (fun k => !(decide (k ∈ nodeIds g)))).length ∧
      (entries.foldl
          (fun g' p => p.2.foldl (fun g'' op => addEdge g'' op p.1)
            (addNode g' p.1 "resource")) g).edges.length =
          g.edges.length + pairCount entries ∧
      (∀ e ∈ (entries.foldl
          (fun g' p => p.2.foldl (fun g'' op => addEdge g'' op p.1)
            (addNode g' p.1 "resource")) g).edges,
        e ∈ g.edges ∨ e.2 ∈ keyList entries) := by
  intro entries
  induction entries with
  | nil => exact fun g _ _ _ => ⟨by simp [keyList], by simp [pairCount], fun e he => Or.inl he⟩
  | cons q rest ih =>
    intro g hnd hval hold
    obtain ⟨r, ops⟩ := q
    simp only [List.foldl_cons]
    have hopsnd : ops.Nodup := (hval (r, ops) (List.mem_cons_self _ _)).1
    have hopsin : ∀ op ∈ ops, op ∈ nodeIds g :=
      (hval (r, ops) (List.mem_cons_self _ _)).2
    have hg1ids : nodeIds (addNode g r "resource") =
        if r ∈ nodeIds g then nodeIds g else nodeIds g ++ [r] := nodeIds_addNode g r _
    have hg1edges : (addNode g r "resource").edges = g.edges := edges_addNode g r _
    have hrg1 : r ∈ nodeIds (addNode g r "resource") := by
      rw [hg1ids]
      split
      · next h => exact h
      · exact List.mem_append_right _ (List.mem_singleton_self _)
    have hopsg1 : ∀ op ∈ ops, op ∈ nodeIds (addNode g r "resource") := by
      intro op hop
      rw [hg1ids]
      split
      · exact hopsin op hop
      · exact List.mem_append_left _ (hopsin op hop)
    have holdg1 : ∀ e ∈ (addNode g r "resource").edges, e.2 = r → e.1 ∉ ops := by
      intro e he her
      rw [hg1edges] at he
      exact absurd (her ▸ List.mem_cons_self r (keyList rest) : e.2 ∈ keyList ((r, ops) :: rest))
        (hold e he)
  -- the inner edge fold
    obtain ⟨he1, he2, he3⟩ := edgefold_spec ops (addNode g r "resource") r
      hopsnd hopsg1 hrg1 holdg1
    set g2 := ops.foldl (fun g'' op => addEdge g'' op r) (addNode g r "resource") with hg2
    have hg2ids : nodeIds g2 = nodeIds (addNode g r "resource") := by
      unfold nodeIds
      rw [he1]
    have hrestval : ∀ p ∈ rest, p.2.Nodup ∧ ∀ op ∈ p.2, op ∈ nodeIds g2 := by
      intro p hp
      refine ⟨(hval p (List.mem_cons_of_mem _ hp)).1, ?_⟩
      intro op hop
      rw [hg2ids, hg1ids]
      have := (hval p (List.mem_cons_of_mem _ hp)).2 op hop
      split
      · exact this
      · exact List.mem_append_left _ this
    have hrestold : ∀ e ∈ g2.edges, e.2 ∉ keyList rest := by
      intro e he hk
      rcases he3 e he with h1 | h1
      · rw [hg1edges] at h1
        exact hold e h1 (List.mem_cons_of_mem _ hk)
      · exact (List.nodup_cons.mp hnd).1 (h1 ▸ hk)
    obtain ⟨f1, f2, f3⟩ := ih g2 (List.nodup_cons.mp hnd).2 hrestval hrestold
    refine ⟨?_, ?_, ?_⟩
    · rw [f1]
      have hg2nodes : g2.nodes.length =
          g.nodes.length + (if r ∈ nodeIds g then 0 else 1) := by
        have : g2.nodes = (addNode g r "resource").nodes := he1
        rw [this]
        have hlen : (addNode g r "resource").nodes.length =
            (nodeIds (addNode g r "resource")).length := (List.length_map _ _).symm
        have hlen' : g.nodes.length = (nodeIds g).length := (List.length_map _ _).symm
        rw [hlen, hlen', hg1ids]
        split
        · simp
        · simp
      rw [hg2nodes]
      have hfilter : (keyList rest).filter (fun k => !(decide (k ∈ nodeIds g2))) =
          (keyList rest).filter (fun k => !(decide (k ∈ nodeIds g))) := by
        refine List.filter_congr ?_
        intro k hk
        have hkr : k ≠ r := by
          intro e
          exact (List.nodup_cons.mp hnd).1 (e ▸ hk)
        rw [hg2ids, hg1ids]
        split
        · rfl
        · have : (k ∈ nodeIds g ++ [r]) ↔ (k ∈ nodeIds g) := by
            simp [hkr]
          simp only [this]
      rw [hfilter]
      have hkcons : keyList ((r, ops) :: rest) = r :: keyList rest := rfl
      rw [hkcons, List.filter_cons]
      by_cases hrin : r ∈ nodeIds g
      · simp [hrin]
      · simp [hrin]
        omega
    · rw [f2, he2, hg1edges]
      have : pairCount ((r, ops) :: rest) = ops.length + pairCount rest := by
        simp [pairCount]
      rw [this]
      omega
    · intro e he
      rcases f3 e he with h1 | h1
      · rcases he3 e h1 with h2 | h2
        · rw [hg1edges] at h2
          exact Or.inl h2
        · exact Or.inr (h2 ▸ List.mem_cons_self _ _)
      · exact Or.inr (List.mem_cons_of_mem _ h1)

theorem filter_mem_split_length (l keys2 : List String) :
    (l.filter (fun k => decide (k ∈ keys2))).length +
      (l.filter (fun k => !(decide (k ∈ keys2)))).length = l.length := by
  induction l with
  | nil => simp
  | cons a rest ih =>
    by_cases h : a ∈ keys2 <;> simp [List.filter_cons, h] <;> omega

/-- C6 (counterexample): on `textDup` (two Function symbols named `f`)
the built graph has 2 edges — one per pair in `resource_to_operations` —
while `operation_to_resources` holds only 1 distinct (operation,
resource) pair, because the duplicate name overwrote the first entry.  So
the edge count does not equal the pair count of
`operation_to_resources`. -/
theorem graph_edges_counterexample :
    (build_dependency_graph (extract_resource_dependencies (parse_symbols textDup) textDup).1
      (extract_resource_dependencies (parse_symbols textDup) textDup).2).edges.length = 2 ∧
    pairCount (extract_resource_dependencies (parse_symbols textDup) textDup).2 = 1 ∧
    (build_dependency_graph (extract_resource_dependencies (parse_symbols textDup) textDup).1
      (extract_resource_dependencies (parse_symbols textDup) textDup).2).edges.length ≠
      pairCount (extract_resource_dependencies (parse_symbols textDup) textDup).2 := by
  refine ⟨by decide, by decide, by decide⟩

/-- C6 (amended): for every symbol list and text, the graph built from
the extracted index satisfies `|nodes| + |collisions| = |operations| +
|resources|` (i.e. `|nodes| = |operations| + |resources|` minus the name
collisions between the two namespaces), and `|edges|` equals the number
of distinct (operation, resource) pairs in `resource_to_operations`;
this also equals the pair count of `operation_to_resources` whenever no
two Function symbols share a name. -/
theorem graph_size_amended (symbols : List CodeSymbol) (code : String) :
    (build_dependency_graph (extract_resource_dependencies symbols code).1
        (extract_resource_dependencies symbols code).2).nodes.length +
      ((keyList (extract_resource_dependencies symbols code).1).filter
        (fun k => decide (k ∈ keyList (extract_resource_dependencies symbols code).2))).length =
      (extract_resource_dependencies symbols code).2.length +
        (extract_resource_dependencies symbols code).1.length ∧
    (build_dependency_graph (extract_resource_dependencies symbols code).1
        (extract_resource_dependencies symbols code).2).edges.length =
      pairCount (extract_resource_dependencies symbols code).1 ∧
    ((FnNames symbols).Nodup →
      (build_dependency_graph (extract_resource_dependencies symbols code).1
          (extract_resource_dependencies symbols code).2).edges.length =
        pairCount (extract_resource_dependencies symbols code).2) := by
  obtain ⟨hnd1, hnd2, hent⟩ := extract_inv symbols code
  set st := extract_resource_dependencies symbols code with hst
  have hbuild : build_dependency_graph st.1 st.2 =
      st.1.foldl
        (fun g p => p.2.foldl (fun g' op => addEdge g' op p.1) (addNode g p.1 "resource"))
        (st.2.foldl (fun g p => addNode g p.1 "operation") ⟨[], []⟩) := rfl
  obtain ⟨p1ids, p1edges⟩ := phase1_spec st.2 ⟨[], []⟩
    (by intro k _ hk; simp [nodeIds] at hk) hnd2
  set g1 := st.2.foldl (fun g p => addNode g p.1 "operation") (⟨[], []⟩ : DepGraph) with hg1
  have hg1ids : nodeIds g1 = keyList st.2 := by
    rw [p1ids]
    simp [nodeIds]
  have hg1edges : g1.edges = [] := p1edges
  obtain ⟨q1, q2, _⟩ := phase2_spec st.1 g1 hnd1
    (by
      intro p hp
      refine ⟨(hent p hp).1, ?_⟩
      intro op hop
      rw [hg1ids]
      exact (hent p hp).2 op hop)
    (by
      intro e he
      rw [hg1edges] at he
      simp at he)
  rw [hbuild]
  refine ⟨?_, ?_, ?_⟩
  · rw [q1]
    have hg1len : g1.nodes.length = st.2.length := by
      have h1 : g1.nodes.length = (nodeIds g1).length := (List.length_map _ _).symm
      rw [h1, hg1ids]
      exact List.length_map _ _
    rw [hg1len]
    have hfil : (keyList st.1).filter (fun k => !(decide (k ∈ nodeIds g1))) =
        (keyList st.1).filter (fun k => !(decide (k ∈ keyList st.2))) := by
      simp only [hg1ids]
    rw [hfil]
    have hsplit := filter_mem_split_length (keyList st.1) (keyList st.2)
    have hkl : (keyList st.1).length = st.1.length := List.length_map _ _
    omega
  · rw [q2, hg1edges]
    simp
  · intro hnodup
    rw [q2, hg1edges]
    simp only [List.length_nil, Nat.zero_add]
    rw [hst]
    exact pairCount_extract_eq symbols code hnodup

/-- Witness for C6: on the Scenario A text (duplicate-free function
names) the built graph's edge count equals the pair count of
`operation_to_resources`. -/
theorem graph_size_amended_witness :
    (build_dependency_graph (extract_resource_dependencies (parse_symbols textA) textA).1
        (extract_resource_dependencies (parse_symbols textA) textA).2).edges.length =
      pairCount (extract_resource_dependencies (parse_symbols textA) textA).2 :=
  (graph_size_amended (parse_symbols textA) textA).2.2 (by decide)
